import Mathlib

/-!
Shallow embedding of the obsidian-sspai-toc plugin (the current plugin class
of the repository source) together with proofs about its outline
reconciliation and active-position resolution logic.

The embedding follows the TypeScript source:
* `TocItem`                      — the heading record produced by `getTocHeaders`
* `stripMarkdown`                — the regex-replacement chain, rendered as
                                   explicit scanners over character lists
* `areHeadersStructurallyEqual`  — the structural diff check
* `renderToc`                    — the full rebuild, as a state transition
* `updateActiveItem`             — active / parent-visible marking
* `highlightActiveHeader`        — both resolver strategies (preview mode
                                   text matching, source mode line scanning)
-/

/-- `TocItem` as produced by `getTocHeaders`: heading level, raw heading
text, source line, and a slug id. -/
structure TocItem where
  level : Nat
  text : String
  line : Nat
  id : String
deriving DecidableEq, Repr

/-! ### stripMarkdown

The source applies five global regex replacements in this order:
1. links `[text](url)` → `text`;
2. bold `(**|__)(.*?)\1` → inner;
3. italic `(*|_)(.*?)\1` → inner;
4. inline code (backtick, one or more non-backtick chars, backtick) → inner;
5. images `![alt](url)` → `alt`.
Each is modelled as a matcher returning, on success at the current position,
the replacement text and the remainder of the input after the match, and a
fuel-indexed scanner applying the matcher globally left to right. -/

/-- Split a character list at the first occurrence of `c`: returns the part
before `c` and the part after it, or `none` when `c` does not occur. -/
def splitAtChar (c : Char) : List Char → Option (List Char × List Char)
  | [] => none
  | x :: xs =>
    if x = c then some ([], xs)
    else (splitAtChar c xs).map (fun p => (x :: p.1, p.2))

/-- The backtick character (code point 96). -/
def backtickChar : Char := Char.ofNat 96

/-- Matcher for the link regex `\[([^\]]+)\]\([^)]+\)` with replacement
`$1`: an opening bracket, a nonempty run of non-`]` characters, `](`, a
nonempty run of non-`)` characters, then `)`. -/
def matchLink : List Char → Option (List Char × List Char)
  | '[' :: rest =>
    match splitAtChar ']' rest with
    | some (label, rest2) =>
      if label = [] then none
      else
        match rest2 with
        | '(' :: rest3 =>
          match splitAtChar ')' rest3 with
          | some (url, rest4) => if url = [] then none else some (label, rest4)
          | none => none
        | _ => none
    | none => none
  | _ => none

/-- Matcher for the image regex `!\[([^\]]*)\]\([^)]+\)` with replacement
`$1`: like `matchLink` but preceded by `!` and allowing an empty alt text. -/
def matchImage : List Char → Option (List Char × List Char)
  | '!' :: '[' :: rest =>
    match splitAtChar ']' rest with
    | some (alt, rest2) =>
      match rest2 with
      | '(' :: rest3 =>
        match splitAtChar ')' rest3 with
        | some (url, rest4) => if url = [] then none else some (alt, rest4)
        | none => none
      | _ => none
    | none => none
  | _ => none

/-- Matcher for the inline-code regex (backtick, `[^`+ backtick) with
replacement `$1`. -/
def matchCode : List Char → Option (List Char × List Char)
  | c :: rest =>
    if c = backtickChar then
      match splitAtChar backtickChar rest with
      | some (content, rest2) => if content = [] then none else some (content, rest2)
      | none => none
    else none
  | [] => none

/-- Find the first occurrence of the two-character delimiter `d d` in the
list; returns the content before it and the remainder after it. This is the
lazy `(.*?)\1` search for a doubled delimiter. -/
def findClose2 (d : Char) : List Char → Option (List Char × List Char)
  | x :: y :: xs =>
    if x = d ∧ y = d then some ([], xs)
    else (findClose2 d (y :: xs)).map (fun p => (x :: p.1, p.2))
  | _ => none

/-- Matcher for the bold regex `(\*\*|__)(.*?)\1` with replacement `$2`:
a doubled `*` or doubled `_` opener, a lazily matched run of non-newline
characters, then the same doubled delimiter. -/
def matchBold : List Char → Option (List Char × List Char)
  | x :: y :: xs =>
    if x = '*' ∧ y = '*' then
      match findClose2 '*' xs with
      | some (content, rest) =>
        if content.contains '\n' then none else some (content, rest)
      | none => none
    else if x = '_' ∧ y = '_' then
      match findClose2 '_' xs with
      | some (content, rest) =>
        if content.contains '\n' then none else some (content, rest)
      | none => none
    else none
  | _ => none

/-- Matcher for the italic regex `(\*|_)(.*?)\1` with replacement `$2`:
a single `*` or `_`, a lazily matched run of non-newline characters, then
the same single delimiter. -/
def matchItalic : List Char → Option (List Char × List Char)
  | x :: xs =>
    if x = '*' ∨ x = '_' then
      match splitAtChar x xs with
      | some (content, rest) =>
        if content.contains '\n' then none else some (content, rest)
      | none => none
    else none
  | [] => none

/-- Global replacement: scan left to right; where the matcher fires, emit
the replacement and resume after the matched text (the replacement itself is
not rescanned, as with JavaScript `String.replace` with a `g` flag). `fuel`
bounds the number of steps; each step consumes at least one input
character, so `fuel = input.length` suffices. -/
def replaceAll (m : List Char → Option (List Char × List Char)) :
    Nat → List Char → List Char
  | 0, l => l
  | _, [] => []
  | fuel + 1, x :: xs =>
    match m (x :: xs) with
    | some (rep, rest) => rep ++ replaceAll m fuel rest
    | none => x :: replaceAll m fuel xs

/-- `stripMarkdown` from the source: links, then bold, then italic, then
inline code, then images — in exactly the order the five `replace` calls
appear in the TypeScript. -/
def stripMarkdown (text : String) : String :=
  let s1 := replaceAll matchLink text.data.length text.data
  let s2 := replaceAll matchBold s1.length s1
  let s3 := replaceAll matchItalic s2.length s2
  let s4 := replaceAll matchCode s3.length s3
  let s5 := replaceAll matchImage s4.length s4
  String.mk s5

/-- `areHeadersStructurallyEqual` from the source: equal lengths and, at
every index, equal `level` and equal raw `text` (line ignored). -/
def areHeadersStructurallyEqual (oldHeaders newHeaders : List TocItem) : Bool :=
  oldHeaders.length == newHeaders.length &&
    (List.zip oldHeaders newHeaders).all
      (fun p => p.1.level == p.2.level && p.1.text == p.2.text)

example : stripMarkdown "![alt](x)" = "!alt" := by decide
example : stripMarkdown "**A**" = "A" := by decide
example : stripMarkdown "[Intro](#x)" = "Intro" := by decide

/-! ### Outline panel state

A rendered outline entry (`.sspai-toc-item` div): its `dataset.line`,
`dataset.level`, the inner text of its `.sspai-toc-text` span, and the two
visual-state classes toggled by `updateActiveItem`. -/

/-- One outline panel entry as rendered into the DOM. -/
structure DomItem where
  line : Nat
  level : Nat
  label : String
  active : Bool
  parentVisible : Bool
deriving DecidableEq, Repr

/-- The plugin fields touched by the reconciliation / resolution logic:
`lastActiveIndex`, `blockScrollEvent`, the `lastHeadings` cache and the
rendered outline entries. -/
structure TocState where
  lastActiveIndex : Int
  blockScrollEvent : Bool
  lastHeadings : List TocItem
  items : List DomItem
deriving DecidableEq, Repr

/-- `renderToc` from the source, as a state transition: empties the panel,
stores the headers into `lastHeadings`, and creates one entry per header
with `dataset.line`, `dataset.level` and the markup-stripped label (no
visual-state classes on fresh entries). It writes no other plugin field. -/
def renderToc (s : TocState) (headers : List TocItem) : TocState :=
  { s with
    lastHeadings := headers,
    items := headers.map (fun h =>
      { line := h.line, level := h.level, label := stripMarkdown h.text,
        active := false, parentVisible := false }) }

/-! ### updateActiveItem -/

/-- The initial pass of `updateActiveItem`: remove `active` and
`parent-visible` from every entry. -/
def clearMarks (items : List DomItem) : List DomItem :=
  items.map (fun it => { it with active := false, parentVisible := false })

/-- The backward ancestor walk of `updateActiveItem`, acting on the levels
of the entries before the active one listed from nearest to farthest
(`walk`), with `found` the set of levels already marked: an entry is marked
when its level is strictly below the active level and not yet found; after
marking a level-1 entry the loop breaks, leaving the remaining entries
unmarked. Returns one flag per walked entry. -/
def ancestorMarks (activeLevel : Nat) : List Nat → List Nat → List Bool
  | _, [] => []
  | found, l :: rest =>
    if l < activeLevel ∧ l ∉ found then
      if l = 1 then true :: rest.map (fun _ => false)
      else true :: ancestorMarks activeLevel (l :: found) rest
    else false :: ancestorMarks activeLevel found rest

/-- `updateActiveItem` from the source: clear all visual state; when the
index is valid, mark it `active` and mark the ancestor chain found by the
backward walk as `parent-visible`. -/
def updateActiveItem (items : List DomItem) (activeIndex : Int) : List DomItem :=
  let cleared := clearMarks items
  if 0 ≤ activeIndex ∧ activeIndex < (items.length : Int) then
    let a := activeIndex.toNat
    let levels := items.map (fun it => it.level)
    let activeLevel := levels.getD a 1
    let marks := ancestorMarks activeLevel [] ((levels.take a).reverse)
    (cleared.enum).map (fun p =>
      if p.1 = a then { p.2 with active := true }
      else if p.1 < a ∧ marks.getD (a - 1 - p.1) false then
        { p.2 with parentVisible := true }
      else p.2)
  else cleared

/-! ### Active-position resolver, rendered (preview) mode -/

/-- A DOM heading element visible to the preview-mode strategy: its
bounding-rect top, its level (from the `h1..h6` tag), its `innerText` and
its `data-heading` attribute. -/
structure DomHeader where
  top : ℚ
  level : Nat
  innerText : String
  dataHeading : String
deriving DecidableEq, Repr

/-- `userOffset` of the preview branch: `scrollEl.clientHeight / 2000`. -/
def previewUserOffset (clientHeight : ℚ) : ℚ := clientHeight / 2000

/-- `targetTop` of the preview branch:
`containerRect.top + userOffset - 20`. -/
def previewTargetTop (containerTop clientHeight : ℚ) : ℚ :=
  containerTop + previewUserOffset clientHeight - 20

/-- The preview-branch loop over DOM headings: keep advancing while the
current heading's top is at or above the target, remembering the *next*
heading (or the current one when it is the last); stop at the first heading
below the target. -/
def findActiveDomHeader (targetTop : ℚ) : List DomHeader → Option DomHeader
  | [] => none
  | [h] => if h.top ≤ targetTop then some h else none
  | h :: h2 :: rest =>
    if h.top ≤ targetTop then
      if h2.top ≤ targetTop then findActiveDomHeader targetTop (h2 :: rest)
      else some h2
    else none

/-- The candidate text used for matching: `innerText`, falling back to the
`data-heading` attribute when `innerText` is empty. -/
def effectiveHeaderText (h : DomHeader) : String :=
  if h.innerText = "" then h.dataHeading else h.innerText

/-- Indices of outline entries whose level and label equal the candidate
heading's level and text, in ascending scan order. -/
def matchingIndices (items : List DomItem) (level : Nat) (text : String) : List Nat :=
  ((items.enum).filter (fun p => p.2.level == level && p.2.label == text)).map
    (fun p => p.1)

/-- `Math.abs(idx - this.lastActiveIndex)`: distance between a candidate
index and the last active index. -/
def distTo (last : Int) (idx : Nat) : Nat := ((idx : Int) - last).natAbs

/-- The duplicate-resolution fold: scan the remaining candidates, replacing
the current best only on a strictly smaller distance to `last`. -/
def closestTo (last : Int) : List Nat → Nat → Nat → Nat
  | [], best, _ => best
  | i :: rest, best, minD =>
    if distTo last i < minD then closestTo last rest i (distTo last i)
    else closestTo last rest best minD

/-- `matchedIndex` selection of the preview branch: none on zero matches;
the unique match when there is exactly one; otherwise the candidate closest
to `last` (the first scanned element always beats the infinite initial
distance, so the fold starts from the head). -/
def chooseMatch (matching : List Nat) (last : Int) : Option Nat :=
  match matching with
  | [] => none
  | [i] => some i
  | i :: rest => some (closestTo last rest i (distTo last i))

/-- Inputs read by the preview branch of `highlightActiveHeader` from the
scroller element and the rendered document. -/
structure PreviewInput where
  scrollTop : ℚ
  clientHeight : ℚ
  containerTop : ℚ
  domHeaders : List DomHeader
deriving Repr

/-- The preview (rendered) branch of `highlightActiveHeader`: top-of-document
force-select when scrolled within 50px of the top and the outline is
nonempty; otherwise text-based matching of the candidate DOM heading against
the outline entries, updating state only when a match is found. -/
def previewResolve (s : TocState) (inp : PreviewInput) : TocState :=
  if inp.scrollTop < 50 ∧ s.items.length > 0 then
    { s with lastActiveIndex := 0, items := updateActiveItem s.items 0 }
  else
    let targetTop := previewTargetTop inp.containerTop inp.clientHeight
    match findActiveDomHeader targetTop inp.domHeaders with
    | none => s
    | some hdr =>
      let headerText := effectiveHeaderText hdr
      if headerText = "" then s
      else
        match chooseMatch (matchingIndices s.items hdr.level headerText) s.lastActiveIndex with
        | none => s
        | some m =>
          { s with lastActiveIndex := (m : Int), items := updateActiveItem s.items (m : Int) }

/-! ### Active-position resolver, raw (source) mode -/

/-- The source-mode scan: walk the entry lines in order with the running
index `i` and accumulator `acc` (initially −1); while the entry line is at
or below the current line, record `i` (explicit cursor) or `i + 1` (scroll
estimate); stop at the first entry past the current line. -/
def sourceScanAux (currentLine : Int) (explicit : Bool) : List Nat → Nat → Int → Int
  | [], _, acc => acc
  | l :: rest, i, acc =>
    if (l : Int) ≤ currentLine then
      sourceScanAux currentLine explicit rest (i + 1)
        (if explicit then (i : Int) else (i : Int) + 1)
    else acc

/-- The scan followed by the overflow clamp of the source branch. -/
def sourceActiveIndex (lines : List Nat) (currentLine : Int) (explicit : Bool) : Int :=
  let scanned := sourceScanAux currentLine explicit lines 0 (-1)
  if scanned ≥ (lines.length : Int) then (lines.length : Int) - 1 else scanned

/-- The source (raw) branch of `highlightActiveHeader`, with the editor
present: scan and clamp, then force index 0 when the editor scroll offset is
within 50px of the top, store a nonnegative result into `lastActiveIndex`,
and apply the visual state. -/
def sourceResolve (s : TocState) (currentLine : Int) (explicit : Bool)
    (scrollTop : ℚ) : TocState :=
  let idx := sourceActiveIndex (s.items.map (fun it => it.line)) currentLine explicit
  let activeIndex := if scrollTop < 50 then 0 else idx
  { s with
    lastActiveIndex := if 0 ≤ activeIndex then activeIndex else s.lastActiveIndex,
    items := updateActiveItem s.items activeIndex }

example :
    updateActiveItem
      [⟨0, 1, "A", false, false⟩, ⟨1, 2, "B", false, false⟩,
       ⟨2, 3, "C", false, false⟩, ⟨3, 2, "D", false, false⟩] 2 =
    [⟨0, 1, "A", false, true⟩, ⟨1, 2, "B", false, true⟩,
     ⟨2, 3, "C", true, false⟩, ⟨3, 2, "D", false, false⟩] := by decide

example :
    updateActiveItem
      [⟨0, 1, "A", false, false⟩, ⟨1, 2, "B", false, false⟩,
       ⟨2, 3, "C", false, false⟩, ⟨3, 2, "D", false, false⟩] 3 =
    [⟨0, 1, "A", false, true⟩, ⟨1, 2, "B", false, false⟩,
     ⟨2, 3, "C", false, false⟩, ⟨3, 2, "D", true, false⟩] := by decide

example : chooseMatch [2, 7] 3 = some 2 := by decide

example : sourceActiveIndex [0, 10, 30] 12 true = 1 := by decide
example : sourceActiveIndex [0, 10, 30] 12 false = 2 := by decide
example : sourceActiveIndex [0, 10, 30] 40 false = 2 := by decide
example : sourceActiveIndex [0, 10, 30] (-1) true = -1 := by decide

/-! ## Claims -/

/-- Claim C1 counterexample: a full rebuild starting from `lastActiveIndex = 5`
does not reset it to −1 (nor does it clear the scroll-guard flag). -/
theorem renderToc_no_reset_counterexample :
    ¬ ((renderToc ⟨5, true, [], []⟩ []).lastActiveIndex = -1 ∧
       (renderToc ⟨5, true, [], []⟩ []).blockScrollEvent = false) := by
  decide

/-- Claim C1 (amended): `renderToc` leaves the resolver state untouched — it
preserves `lastActiveIndex` and `blockScrollEvent` exactly, and only
replaces `lastHeadings` and the rendered entries. -/
theorem renderToc_preserves_resolver_state (s : TocState) (headers : List TocItem) :
    (renderToc s headers).lastActiveIndex = s.lastActiveIndex ∧
    (renderToc s headers).blockScrollEvent = s.blockScrollEvent ∧
    (renderToc s headers).lastHeadings = headers ∧
    (renderToc s headers).items = headers.map (fun h =>
      { line := h.line, level := h.level, label := stripMarkdown h.text,
        active := false, parentVisible := false }) :=
  ⟨rfl, rfl, rfl, rfl⟩

/-- Claim C2 counterexample: two snapshots of equal length whose levels and
markup-stripped labels agree pairwise, yet the structural-equality check
returns `false`, because the source compares the raw heading text, not the
stripped label. -/
theorem areHeadersStructurallyEqual_stripped_counterexample :
    areHeadersStructurallyEqual [⟨1, "**A**", 0, "a"⟩] [⟨1, "A", 0, "a"⟩] = false ∧
    ([⟨1, "**A**", 0, "a"⟩] : List TocItem).length =
      ([⟨1, "A", 0, "a"⟩] : List TocItem).length ∧
    List.map (fun h => (h.level, stripMarkdown h.text))
        ([⟨1, "**A**", 0, "a"⟩] : List TocItem) =
      List.map (fun h => (h.level, stripMarkdown h.text))
        ([⟨1, "A", 0, "a"⟩] : List TocItem) := by
  decide

/-- The structural-equality check, characterised as a `Forall₂` over the
two snapshots: equal lengths and pairwise equal level and raw text. -/
theorem areHeadersStructurallyEqual_eq_forall₂ (A B : List TocItem) :
    areHeadersStructurallyEqual A B = true ↔
      List.Forall₂ (fun x y => x.level = y.level ∧ x.text = y.text) A B := by
  induction A generalizing B with
  | nil => cases B <;> simp [areHeadersStructurallyEqual]
  | cons a as ih =>
    cases B with
    | nil => simp [areHeadersStructurallyEqual]
    | cons b bs =>
      simp only [areHeadersStructurallyEqual, List.length_cons, List.zip_cons_cons,
        List.all_cons, Bool.and_eq_true, beq_iff_eq, Nat.succ.injEq,
        List.forall₂_cons] at *
      constructor
      · rintro ⟨hlen, ⟨hl, ht⟩, hall⟩
        exact ⟨⟨hl, ht⟩, (ih bs).mp ⟨hlen, hall⟩⟩
      · rintro ⟨⟨hl, ht⟩, hforall⟩
        have := (ih bs).mpr hforall
        exact ⟨this.1, ⟨hl, ht⟩, this.2⟩

/-- Claim C2 (amended): the structural-equality check returns `true` iff the two
snapshots have the same length and, at every index, equal levels and equal
*raw* heading texts (the markup-stripped labels play no role; the source
line is ignored). -/
theorem areHeadersStructurallyEqual_iff_raw (A B : List TocItem) :
    areHeadersStructurallyEqual A B = true ↔
      A.length = B.length ∧
      ∀ i (h₁ : i < A.length) (h₂ : i < B.length),
        (A.get ⟨i, h₁⟩).level = (B.get ⟨i, h₂⟩).level ∧
        (A.get ⟨i, h₁⟩).text = (B.get ⟨i, h₂⟩).text :=
  (areHeadersStructurallyEqual_eq_forall₂ A B).trans List.forall₂_iff_get

/-- Claim C2 witness: the amended characterisation applied at a concrete pair of
snapshots that differ only in source line. -/
theorem areHeadersStructurallyEqual_iff_raw_witness :
    areHeadersStructurallyEqual [⟨1, "X", 0, "x"⟩] [⟨1, "X", 5, "x"⟩] = true :=
  (areHeadersStructurallyEqual_iff_raw [⟨1, "X", 0, "x"⟩] [⟨1, "X", 5, "x"⟩]).mpr
    ⟨rfl, fun i h₁ _ => match i, h₁ with
      | 0, _ => ⟨rfl, rfl⟩⟩

/-- Claim C3: the source strips links *before* images, so an image `![alt](x)`
is first rewritten by the link pass to `!alt`, and the later image pass
never sees image syntax: a stray `!` remains, contrary to the documented
`![alt](url) → alt` behaviour. -/
theorem stripMarkdown_image_leftover_bang :
    stripMarkdown "![alt](x)" = "!alt" ∧ stripMarkdown "![alt](x)" ≠ "alt" := by
  decide

/-- Claim C8: in both branches, a scroll offset within 50 pixels of the top with a
nonempty outline force-selects index 0: `lastActiveIndex` becomes 0 and the
visual state is that of active entry 0, regardless of heading positions,
target-line computation, or an explicit cursor line. -/
theorem top_of_document_force_select (s : TocState) (inp : PreviewInput)
    (currentLine : Int) (explicit : Bool)
    (htop : inp.scrollTop < 50) (hne : s.items ≠ []) :
    (previewResolve s inp).lastActiveIndex = 0 ∧
    (previewResolve s inp).items = updateActiveItem s.items 0 ∧
    (sourceResolve s currentLine explicit inp.scrollTop).lastActiveIndex = 0 ∧
    (sourceResolve s currentLine explicit inp.scrollTop).items = updateActiveItem s.items 0 := by
  have hlen : 0 < s.items.length := List.length_pos.mpr hne
  unfold previewResolve sourceResolve
  rw [if_pos ⟨htop, hlen⟩]
  simp [htop]

/-- Claim C8 witness: force-selection at scroll offset 0 on a one-entry outline,
with an explicit cursor line supplied to the source branch. -/
theorem top_of_document_force_select_witness :
    (((⟨0, 900, 0, []⟩ : PreviewInput).scrollTop < 50) ∧
      ((⟨3, true, [], [⟨0, 1, "A", false, false⟩]⟩ : TocState).items ≠ [])) ∧
    ((previewResolve ⟨3, true, [], [⟨0, 1, "A", false, false⟩]⟩
        ⟨0, 900, 0, []⟩).lastActiveIndex = 0 ∧
     (previewResolve ⟨3, true, [], [⟨0, 1, "A", false, false⟩]⟩
        ⟨0, 900, 0, []⟩).items =
       updateActiveItem [⟨0, 1, "A", false, false⟩] 0 ∧
     (sourceResolve ⟨3, true, [], [⟨0, 1, "A", false, false⟩]⟩ 42 true
        (0 : ℚ)).lastActiveIndex = 0 ∧
     (sourceResolve ⟨3, true, [], [⟨0, 1, "A", false, false⟩]⟩ 42 true
        (0 : ℚ)).items = updateActiveItem [⟨0, 1, "A", false, false⟩] 0) :=
  ⟨⟨by decide, by decide⟩,
   top_of_document_force_select ⟨3, true, [], [⟨0, 1, "A", false, false⟩]⟩
     ⟨0, 900, 0, []⟩ 42 true (by decide) (by decide)⟩

/-- Evaluation of the DOM-heading scan at the concrete input used by the C9
witness: target line `1000 + 0/2000 − 20 = 980`, one heading at top 0. -/
theorem findActiveDomHeader_concrete_eval :
    findActiveDomHeader (previewTargetTop 1000 0) [⟨0, 2, "B", "B"⟩] =
      some ⟨0, 2, "B", "B"⟩ := by
  norm_num [findActiveDomHeader, previewTargetTop, previewUserOffset]

/-- Claim C9: in the rendered branch, away from the top-of-document region, when
the candidate DOM heading's level and text match no outline entry, the cycle
performs no update at all: the returned state is the input state. -/
theorem preview_zero_matches_no_update (s : TocState) (inp : PreviewInput)
    (hdr : DomHeader) (htop : 50 ≤ inp.scrollTop)
    (hfind : findActiveDomHeader (previewTargetTop inp.containerTop inp.clientHeight)
        inp.domHeaders = some hdr)
    (hmatch : matchingIndices s.items hdr.level (effectiveHeaderText hdr) = []) :
    previewResolve s inp = s := by
  unfold previewResolve
  rw [if_neg (fun h => absurd h.1 (not_lt.mpr htop))]
  dsimp only
  rw [hfind]
  by_cases hempty : effectiveHeaderText hdr = ""
  · simp [hempty]
  · simp [hempty, hmatch, chooseMatch]

/-- Claim C9 witness: a candidate heading at level 2 with text "B" against a
one-entry outline holding a level-1 "A": zero matches, state unchanged. -/
theorem preview_zero_matches_no_update_witness :
    ((50 : ℚ) ≤ (⟨60, 0, 1000, [⟨0, 2, "B", "B"⟩]⟩ : PreviewInput).scrollTop ∧
     matchingIndices [⟨0, 1, "A", false, false⟩] (2 : Nat)
        (effectiveHeaderText ⟨0, 2, "B", "B"⟩) = []) ∧
    previewResolve ⟨7, false, [], [⟨0, 1, "A", false, false⟩]⟩
        ⟨60, 0, 1000, [⟨0, 2, "B", "B"⟩]⟩ =
      ⟨7, false, [], [⟨0, 1, "A", false, false⟩]⟩ :=
  ⟨⟨by decide, by decide⟩,
   preview_zero_matches_no_update ⟨7, false, [], [⟨0, 1, "A", false, false⟩]⟩
     ⟨60, 0, 1000, [⟨0, 2, "B", "B"⟩]⟩ ⟨0, 2, "B", "B"⟩ (by decide)
     findActiveDomHeader_concrete_eval (by decide)⟩

/-- The Boolean test applied to each entry line by the source-mode scan:
the entry line, read as an integer, is at or below the current line. -/
def lineLE (currentLine : Int) (l : Nat) : Bool := decide ((l : Int) ≤ currentLine)

/-- Closed form of the source-mode scan: it returns its accumulator when the
first entry line already exceeds the current line, and otherwise the index
recorded for the last entry of the maximal leading run of lines at or below
the current line (that index itself for an explicit cursor, its successor
for a scroll estimate). -/
theorem sourceScanAux_eq (currentLine : Int) (explicit : Bool) :
    ∀ (lines : List Nat) (i0 : Nat) (acc : Int),
      sourceScanAux currentLine explicit lines i0 acc =
        if (lines.takeWhile (lineLE currentLine)).length = 0 then acc
        else if explicit then
          (i0 : Int) + (lines.takeWhile (lineLE currentLine)).length - 1
        else
          (i0 : Int) + (lines.takeWhile (lineLE currentLine)).length := by
  intro lines
  induction lines with
  | nil => intro i0 acc; simp [sourceScanAux]
  | cons l rest ih =>
    intro i0 acc
    by_cases hl : (l : Int) ≤ currentLine
    · have hcons : List.takeWhile (lineLE currentLine) (l :: rest) =
          l :: List.takeWhile (lineLE currentLine) rest := by
        simp [List.takeWhile_cons, lineLE, hl]
      rw [sourceScanAux, if_pos hl, ih, hcons]
      simp only [List.length_cons]
      cases explicit <;> split_ifs <;>
        first
        | exact (‹False›).elim
        | (push_cast; omega)
    · have hcons : List.takeWhile (lineLE currentLine) (l :: rest) = [] := by
        simp [List.takeWhile_cons, lineLE, hl]
      rw [sourceScanAux, if_neg hl, hcons]
      simp

/-- Length of `takeWhile` pinned down by a pointwise description: the first
`n` elements satisfy the predicate and element `n` (when it exists) does
not. -/
theorem takeWhile_length_of (p : Nat → Bool) :
    ∀ (lines : List Nat) (n : Nat), n ≤ lines.length →
      (∀ j (hj : j < lines.length), j < n → p (lines.get ⟨j, hj⟩) = true) →
      (∀ (hn : n < lines.length), p (lines.get ⟨n, hn⟩) = false) →
      (lines.takeWhile p).length = n := by
  intro lines
  induction lines with
  | nil => intro n hn _ _; simpa using (Nat.le_zero.mp hn).symm
  | cons l rest ih =>
    intro n hn hall hstop
    cases n with
    | zero =>
      have hfalse := hstop (Nat.succ_pos _)
      simp only [List.get] at hfalse
      simp [List.takeWhile_cons, hfalse]
    | succ m =>
      have hl : p l = true := hall 0 (Nat.succ_pos _) (Nat.succ_pos m)
      rw [List.takeWhile_cons, if_pos (by simp [hl])]
      simp only [List.length_cons, Nat.succ.injEq]
      exact ih m (Nat.succ_le_succ_iff.mp hn)
        (fun j hj hjm => hall (j + 1) (Nat.succ_lt_succ hj) (Nat.succ_lt_succ hjm))
        (fun hm => hstop (Nat.succ_lt_succ hm))

/-- Claim C5: in the raw (source) branch, with outline lines in document order,
if `i` is the index of the last entry whose line is at or below the target
line, the explicit-cursor resolution selects `i` itself, and the
scroll-based resolution selects `i + 1`, clamped to the last valid index
when it overflows the entry count. -/
theorem source_scan_selects_last_at_or_before (lines : List Nat) (t : Int) (i : Nat)
    (hsort : List.Sorted (· ≤ ·) lines) (hi : i < lines.length)
    (hle : ((lines.get ⟨i, hi⟩ : Nat) : Int) ≤ t)
    (hlast : ∀ k (hk : k < lines.length), i < k → t < ((lines.get ⟨k, hk⟩ : Nat) : Int)) :
    sourceActiveIndex lines t true = (i : Int) ∧
    sourceActiveIndex lines t false =
      (if i + 1 < lines.length then (i : Int) + 1 else (lines.length : Int) - 1) := by
  have hc : (lines.takeWhile (lineLE t)).length = i + 1 := by
    apply takeWhile_length_of
    · omega
    · intro j hj hji
      have hmono : lines.get ⟨j, hj⟩ ≤ lines.get ⟨i, hi⟩ :=
        hsort.rel_get_of_le (by simpa using Nat.lt_succ_iff.mp hji)
      simp only [lineLE, decide_eq_true_eq]
      exact le_trans (by exact_mod_cast hmono) hle
    · intro hn
      have := hlast (i + 1) hn (Nat.lt_succ_self i)
      simp only [lineLE, decide_eq_false_iff_not]
      omega
  constructor
  · unfold sourceActiveIndex
    rw [sourceScanAux_eq, hc]
    simp only [Nat.succ_ne_zero, if_false, if_true]
    split_ifs with h
    · exfalso; push_cast at h; omega
    · push_cast; omega
  · unfold sourceActiveIndex
    rw [sourceScanAux_eq, hc]
    simp only [Nat.succ_ne_zero, if_false, Bool.false_eq_true]
    split_ifs with h1 h2 <;> push_cast at h1 ⊢ <;> omega

/-- Claim C5 witness: lines `[0, 10, 30]` and target line 12 — the last entry at
or before the target is index 1; the cursor resolution selects 1, the
scroll resolution selects 2. -/
theorem source_scan_selects_last_witness :
    (List.Sorted (· ≤ ·) [0, 10, 30] ∧ 1 < ([0, 10, 30] : List Nat).length ∧
      ((([0, 10, 30] : List Nat).get ⟨1, by decide⟩ : Nat) : Int) ≤ 12 ∧
      ∀ k (hk : k < ([0, 10, 30] : List Nat).length), 1 < k →
        (12 : Int) < ((([0, 10, 30] : List Nat).get ⟨k, hk⟩ : Nat) : Int)) ∧
    sourceActiveIndex [0, 10, 30] 12 true = 1 ∧
    sourceActiveIndex [0, 10, 30] 12 false =
      (if 1 + 1 < ([0, 10, 30] : List Nat).length then (1 : Int) + 1
        else (([0, 10, 30] : List Nat).length : Int) - 1) :=
  ⟨⟨by decide, by decide, by decide, by decide⟩,
   source_scan_selects_last_at_or_before [0, 10, 30] 12 1 (by decide) (by decide)
     (by decide) (by decide)⟩

/-- Indices in an `enumFrom` start at the offset. -/
theorem fst_ge_of_mem_enumFrom {α : Type} :
    ∀ (l : List α) (n : Nat) (p : Nat × α), p ∈ l.enumFrom n → n ≤ p.1 := by
  intro l
  induction l with
  | nil => intro n p h; simp [List.enumFrom] at h
  | cons x xs ih =>
    intro n p h
    simp only [List.enumFrom, List.mem_cons] at h
    rcases h with rfl | h
    · exact le_refl n
    · exact le_trans (Nat.le_succ n) (ih (n + 1) p h)

/-- The indices produced by `enumFrom` are strictly increasing. -/
theorem enumFrom_fst_pairwise {α : Type} :
    ∀ (l : List α) (n : Nat), (l.enumFrom n).Pairwise (fun a b => a.1 < b.1) := by
  intro l
  induction l with
  | nil => intro n; simp [List.enumFrom]
  | cons x xs ih =>
    intro n
    simp only [List.enumFrom]
    exact List.Pairwise.cons
      (fun p hp => lt_of_lt_of_le (Nat.lt_succ_self n) (fst_ge_of_mem_enumFrom _ _ _ hp))
      (ih (n + 1))

/-- The match indices collected by the ascending scan are strictly
increasing. -/
theorem matchingIndices_pairwise (items : List DomItem) (level : Nat) (text : String) :
    (matchingIndices items level text).Pairwise (· < ·) := by
  unfold matchingIndices
  exact List.pairwise_map.mpr ((enumFrom_fst_pairwise items 0).filter _)

/-- The duplicate-resolution fold returns one of the candidates, and one at
minimal distance to the last active index. -/
theorem closestTo_min (last : Int) :
    ∀ (rest : List Nat) (best : Nat),
      closestTo last rest best (distTo last best) ∈ best :: rest ∧
      ∀ j ∈ best :: rest,
        distTo last (closestTo last rest best (distTo last best)) ≤ distTo last j := by
  intro rest
  induction rest with
  | nil =>
    intro best
    refine ⟨List.mem_cons_self _ _, ?_⟩
    intro j hj
    rcases List.mem_cons.mp hj with rfl | h
    · exact le_refl _
    · simp at h
  | cons i rest ih =>
    intro best
    rw [closestTo]
    by_cases hd : distTo last i < distTo last best
    · rw [if_pos hd]
      obtain ⟨hmem, hmin⟩ := ih i
      refine ⟨List.mem_cons_of_mem best hmem, ?_⟩
      intro j hj
      rcases List.mem_cons.mp hj with rfl | hj2
      · exact le_trans (hmin i (List.mem_cons_self i rest)) (le_of_lt hd)
      · exact hmin j hj2
    · rw [if_neg hd]
      obtain ⟨hmem, hmin⟩ := ih best
      constructor
      · rcases List.mem_cons.mp hmem with hbest | hr
        · rw [hbest]; exact List.mem_cons_self _ _
        · exact List.mem_cons_of_mem _ (List.mem_cons_of_mem _ hr)
      · intro j hj
        rcases List.mem_cons.mp hj with rfl | hj2
        · exact hmin j (List.mem_cons_self _ _)
        · rcases List.mem_cons.mp hj2 with rfl | hj3
          · exact le_trans (hmin best (List.mem_cons_self _ _)) (not_lt.mp hd)
          · exact hmin j (List.mem_cons_of_mem _ hj3)

/-- Because the fold replaces its best candidate only on a *strictly*
smaller distance, a candidate at the same distance as the result but
scanned later never wins: with strictly increasing candidates, the result
is the least candidate among those at its distance. -/
theorem closestTo_tie (last : Int) :
    ∀ (rest : List Nat) (best : Nat), (best :: rest).Pairwise (· < ·) →
      ∀ j ∈ best :: rest,
        distTo last j = distTo last (closestTo last rest best (distTo last best)) →
        closestTo last rest best (distTo last best) ≤ j := by
  intro rest
  induction rest with
  | nil =>
    intro best _ j hj _
    simp only [closestTo]
    rcases List.mem_cons.mp hj with hjb | h
    · rw [hjb]
    · simp at h
  | cons i rest ih =>
    intro best hpw j hj heq
    by_cases hd : distTo last i < distTo last best
    · rw [closestTo, if_pos hd] at heq ⊢
      have hpw2 : (i :: rest).Pairwise (· < ·) := hpw.of_cons
      rcases List.mem_cons.mp hj with hjb | hj2
      · exfalso
        rw [hjb] at heq
        have hmin := (closestTo_min last rest i).2 i (List.mem_cons_self _ _)
        omega
      · exact ih i hpw2 j hj2 heq
    · rw [closestTo, if_neg hd] at heq ⊢
      have hpw2 : (best :: rest).Pairwise (· < ·) :=
        hpw.sublist ((List.sublist_cons_self i rest).cons₂ best)
      rcases List.mem_cons.mp hj with hjb | hj2
      · rw [hjb] at heq ⊢
        exact ih best hpw2 best (List.mem_cons_self _ _) heq
      · rcases List.mem_cons.mp hj2 with hji | hj3
        · rw [hji] at heq ⊢
          have hmin := (closestTo_min last rest best).2 best (List.mem_cons_self _ _)
          have hd2 := not_lt.mp hd
          have heqb : distTo last best =
              distTo last (closestTo last rest best (distTo last best)) := by omega
          have hrbest := ih best hpw2 best (List.mem_cons_self _ _) heqb
          have hbi : best < i := List.rel_of_pairwise_cons hpw (List.mem_cons_self _ _)
          omega
        · exact ih best hpw2 j (List.mem_cons_of_mem _ hj3) heq

/-- Claim C6: in rendered-mode duplicate resolution, the selected index is one of
the matching indices and lies at minimal absolute distance from
`lastActiveIndex`; in particular, against an outline whose level-2 label
"X" occurs at indices 2 and 7, with `lastActiveIndex = 3`, index 2 is
selected, not 7. -/
theorem preview_duplicate_closest (items : List DomItem) (level : Nat) (text : String)
    (last : Int) (r : Nat)
    (h : chooseMatch (matchingIndices items level text) last = some r) :
    (r ∈ matchingIndices items level text ∧
     ∀ j ∈ matchingIndices items level text, distTo last r ≤ distTo last j) ∧
    chooseMatch
      (matchingIndices
        [⟨0, 1, "H0", false, false⟩, ⟨1, 2, "H1", false, false⟩,
         ⟨2, 2, "X", false, false⟩, ⟨3, 1, "H3", false, false⟩,
         ⟨4, 2, "H4", false, false⟩, ⟨5, 2, "H5", false, false⟩,
         ⟨6, 1, "H6", false, false⟩, ⟨7, 2, "X", false, false⟩] 2 "X") 3 = some 2 := by
  refine ⟨?_, by decide⟩
  rcases hm : matchingIndices items level text with _ | ⟨i, rest⟩
  · rw [hm] at h; simp [chooseMatch] at h
  · rw [hm] at h
    rcases rest with _ | ⟨i2, rest2⟩
    · simp [chooseMatch] at h
      subst h
      refine ⟨List.mem_cons_self _ _, ?_⟩
      intro j hj
      rcases List.mem_cons.mp hj with rfl | hj2
      · exact le_refl _
      · simp at hj2
    · simp only [chooseMatch, Option.some.injEq] at h
      subst h
      exact closestTo_min last (i2 :: rest2) i

/-- Claim C6 witness: the proximity selection applied at the concrete outline
with duplicates at indices 2 and 7 and `lastActiveIndex = 3`. -/
theorem preview_duplicate_closest_witness :
    chooseMatch
      (matchingIndices
        [⟨0, 1, "H0", false, false⟩, ⟨1, 2, "H1", false, false⟩,
         ⟨2, 2, "X", false, false⟩, ⟨3, 1, "H3", false, false⟩,
         ⟨4, 2, "H4", false, false⟩, ⟨5, 2, "H5", false, false⟩,
         ⟨6, 1, "H6", false, false⟩, ⟨7, 2, "X", false, false⟩] 2 "X") 3 = some 2 ∧
    ((2 : Nat) ∈ matchingIndices
        [⟨0, 1, "H0", false, false⟩, ⟨1, 2, "H1", false, false⟩,
         ⟨2, 2, "X", false, false⟩, ⟨3, 1, "H3", false, false⟩,
         ⟨4, 2, "H4", false, false⟩, ⟨5, 2, "H5", false, false⟩,
         ⟨6, 1, "H6", false, false⟩, ⟨7, 2, "X", false, false⟩] 2 "X" ∧
     ∀ j ∈ matchingIndices
        [⟨0, 1, "H0", false, false⟩, ⟨1, 2, "H1", false, false⟩,
         ⟨2, 2, "X", false, false⟩, ⟨3, 1, "H3", false, false⟩,
         ⟨4, 2, "H4", false, false⟩, ⟨5, 2, "H5", false, false⟩,
         ⟨6, 1, "H6", false, false⟩, ⟨7, 2, "X", false, false⟩] 2 "X",
       distTo 3 2 ≤ distTo 3 j) :=
  ⟨by decide,
   (preview_duplicate_closest
      [⟨0, 1, "H0", false, false⟩, ⟨1, 2, "H1", false, false⟩,
       ⟨2, 2, "X", false, false⟩, ⟨3, 1, "H3", false, false⟩,
       ⟨4, 2, "H4", false, false⟩, ⟨5, 2, "H5", false, false⟩,
       ⟨6, 1, "H6", false, false⟩, ⟨7, 2, "X", false, false⟩] 2 "X" 3 2 (by decide)).1⟩

/-- Claim C10: the tie-break among equally close duplicate matches is
deterministic: the ascending scan replaces its best candidate only on a
strictly smaller distance, so the selected index is the smallest matching
index among those at its distance from `lastActiveIndex`. -/
theorem preview_duplicate_tie_smallest (items : List DomItem) (level : Nat)
    (text : String) (last : Int) (r : Nat)
    (h : chooseMatch (matchingIndices items level text) last = some r) :
    ∀ j ∈ matchingIndices items level text,
      distTo last j = distTo last r → r ≤ j := by
  intro j hj heq
  have hpw := matchingIndices_pairwise items level text
  rcases hmm : matchingIndices items level text with _ | ⟨i, rest⟩
  · rw [hmm] at hj; simp at hj
  · rw [hmm] at h hj hpw
    rcases rest with _ | ⟨i2, rest2⟩
    · simp [chooseMatch] at h
      subst h
      rcases List.mem_cons.mp hj with rfl | h2
      · exact le_refl _
      · simp at h2
    · simp only [chooseMatch, Option.some.injEq] at h
      subst h
      exact closestTo_tie last (i2 :: rest2) i hpw j hj heq

/-- Claim C10 witness: matches at indices 2 and 4 are both at distance 1 from
`lastActiveIndex = 3`; the selection is index 2, the smaller one. -/
theorem preview_duplicate_tie_smallest_witness :
    chooseMatch
      (matchingIndices
        [⟨0, 1, "A", false, false⟩, ⟨1, 1, "B", false, false⟩,
         ⟨2, 2, "X", false, false⟩, ⟨3, 1, "C", false, false⟩,
         ⟨4, 2, "X", false, false⟩] 2 "X") 3 = some 2 ∧
    ∀ j ∈ matchingIndices
        [⟨0, 1, "A", false, false⟩, ⟨1, 1, "B", false, false⟩,
         ⟨2, 2, "X", false, false⟩, ⟨3, 1, "C", false, false⟩,
         ⟨4, 2, "X", false, false⟩] 2 "X",
      distTo 3 j = distTo 3 2 → 2 ≤ j :=
  ⟨by decide,
   preview_duplicate_tie_smallest
     [⟨0, 1, "A", false, false⟩, ⟨1, 1, "B", false, false⟩,
      ⟨2, 2, "X", false, false⟩, ⟨3, 1, "C", false, false⟩,
      ⟨4, 2, "X", false, false⟩] 2 "X" 3 2 (by decide)⟩

/-- The ancestor walk produces one flag per walked entry. -/
theorem ancestorMarks_length (aL : Nat) :
    ∀ (walk found : List Nat), (ancestorMarks aL found walk).length = walk.length := by
  intro walk
  induction walk with
  | nil => intro found; rfl
  | cons l rest ih =>
    intro found
    rw [ancestorMarks]
    split_ifs <;> simp [ih]

/-- Pointwise characterisation of the ancestor walk (walked entries listed
nearest-first): position `p` is marked exactly when its level is strictly
below the active level, is not already found, and no earlier (nearer)
walked entry has the same level or level 1. Needs all levels ≥ 1 and level
1 not yet found — both invariants of the call site. -/
theorem ancestorMarks_getD (aL : Nat) :
    ∀ (walk found : List Nat), (∀ x ∈ walk, 1 ≤ x) → (1 : Nat) ∉ found →
      ∀ p, p < walk.length →
        ((ancestorMarks aL found walk).getD p false = true ↔
          (walk.getD p 0 < aL ∧ walk.getD p 0 ∉ found ∧
           ∀ q, q < p → walk.getD q 0 ≠ walk.getD p 0 ∧ walk.getD q 0 ≠ 1)) := by
  intro walk
  induction walk with
  | nil => intro found _ _ p hp; simp at hp
  | cons l rest ih =>
    intro found hwalk h1f p hp
    rw [ancestorMarks]
    by_cases hcond : l < aL ∧ l ∉ found
    · rw [if_pos hcond]
      by_cases hl1 : l = 1
      · rw [if_pos hl1]
        cases p with
        | zero =>
          simp only [List.getD_cons_zero]
          exact ⟨fun _ => ⟨hcond.1, hcond.2, fun q hq => absurd hq (Nat.not_lt_zero q)⟩,
            fun _ => trivial⟩
        | succ p =>
          simp only [List.getD_cons_succ]
          constructor
          · intro habs
            exfalso
            have hlen : p < rest.length := by
              simp only [List.length_cons] at hp; omega
            rw [List.getD_eq_getElem _ _ (by simpa using hlen), List.getElem_map] at habs
            simp at habs
          · rintro ⟨_, _, hq⟩
            exfalso
            have := (hq 0 (Nat.succ_pos p)).2
            simp only [List.getD_cons_zero] at this
            exact this hl1
      · rw [if_neg hl1]
        have h1f2 : (1 : Nat) ∉ l :: found := by
          intro hm
          rcases List.mem_cons.mp hm with he | hm2
          · exact hl1 he.symm
          · exact h1f hm2
        cases p with
        | zero =>
          simp only [List.getD_cons_zero]
          exact ⟨fun _ => ⟨hcond.1, hcond.2, fun q hq => absurd hq (Nat.not_lt_zero q)⟩,
            fun _ => trivial⟩
        | succ p =>
          simp only [List.getD_cons_succ]
          have hrec := ih (l :: found) (fun x hx => hwalk x (List.mem_cons_of_mem l hx))
            h1f2 p (by simp only [List.length_cons] at hp; omega)
          rw [hrec]
          constructor
          · rintro ⟨h1, h2, h3⟩
            refine ⟨h1, fun hm => h2 (List.mem_cons_of_mem l hm), ?_⟩
            intro q hq
            cases q with
            | zero =>
              simp only [List.getD_cons_zero]
              constructor
              · intro he
                apply h2
                rw [← he]
                exact List.mem_cons_self l found
              · exact hl1
            | succ q => simpa using h3 q (Nat.lt_of_succ_lt_succ hq)
          · rintro ⟨h1, h2, h3⟩
            refine ⟨h1, ?_, fun q hq => by simpa using h3 (q + 1) (Nat.succ_lt_succ hq)⟩
            intro hm
            rcases List.mem_cons.mp hm with he | hm2
            · exact (h3 0 (Nat.succ_pos p)).1 (by simpa using he.symm)
            · exact h2 hm2
    · rw [if_neg hcond]
      cases p with
      | zero =>
        simp only [List.getD_cons_zero]
        constructor
        · intro habs; simp at habs
        · rintro ⟨h1, h2, _⟩; exact absurd ⟨h1, h2⟩ hcond
      | succ p =>
        simp only [List.getD_cons_succ]
        have hplen : p < rest.length := by
          simp only [List.length_cons] at hp; omega
        have hrec := ih found (fun x hx => hwalk x (List.mem_cons_of_mem l hx)) h1f p hplen
        rw [hrec]
        constructor
        · rintro ⟨h1, h2, h3⟩
          refine ⟨h1, h2, ?_⟩
          intro q hq
          cases q with
          | zero =>
            simp only [List.getD_cons_zero]
            have hx : rest.getD p 0 ∈ rest := by
              rw [List.getD_eq_getElem _ _ hplen]
              exact List.getElem_mem ..
            have hx1 : 1 ≤ rest.getD p 0 := hwalk _ (List.mem_cons_of_mem l hx)
            constructor
            · intro he
              apply hcond
              rw [he]
              exact ⟨h1, h2⟩
            · intro he1
              have hno : ¬ (1 < aL ∧ (1 : Nat) ∉ found) := by rw [← he1]; exact hcond
              have haL : ¬ (1 < aL) := fun hlt => hno ⟨hlt, h1f⟩
              omega
          | succ q => simpa using h3 q (Nat.lt_of_succ_lt_succ hq)
        · rintro ⟨h1, h2, h3⟩
          exact ⟨h1, h2, fun q hq => by simpa using h3 (q + 1) (Nat.succ_lt_succ hq)⟩

/-- `updateActiveItem` preserves the entry count. -/
theorem updateActiveItem_length (items : List DomItem) (x : Int) :
    (updateActiveItem items x).length = items.length := by
  unfold updateActiveItem
  split_ifs <;> simp [clearMarks]

/-- `List.get` applied at provably equal indices yields equal levels. -/
theorem get_level_congr (items : List DomItem) (i1 i2 : Nat)
    (h1 : i1 < items.length) (h2 : i2 < items.length) (he : i1 = i2) :
    (items.get ⟨i1, h1⟩).level = (items.get ⟨i2, h2⟩).level := by
  subst he; rfl

/-- Bridge from the reversed-prefix walk back to outline indices: for
`j < a`, the walk flag at position `a − 1 − j` says exactly that entry `j`
is the nearest preceding entry of its (strictly smaller than active) level,
with no level-1 entry in between. -/
theorem marks_bridge (items : List DomItem) (a : Nat) (ha : a < items.length)
    (hlev : ∀ it ∈ items, 1 ≤ it.level) (j : Nat) (hj : j < items.length)
    (hjlt : j < a) :
    ((ancestorMarks ((items.map (fun it => it.level)).getD a 1) []
        (((items.map (fun it => it.level)).take a).reverse)).getD (a - 1 - j) false
      = true) ↔
      ((items.get ⟨j, hj⟩).level < (items.get ⟨a, ha⟩).level ∧
       ∀ k (hk : k < items.length), j < k → k < a →
         (items.get ⟨k, hk⟩).level ≠ (items.get ⟨j, hj⟩).level ∧
         (items.get ⟨k, hk⟩).level ≠ 1) := by
  have hlenmap : (items.map (fun it => it.level)).length = items.length :=
    List.length_map _ _
  have hwlen : ((((items.map (fun it => it.level)).take a)).reverse).length = a := by
    simp only [List.length_reverse, List.length_take, hlenmap]
    omega
  have hwalkget : ∀ q (hq : q < a),
      ((((items.map (fun it => it.level)).take a)).reverse).getD q 0 =
        (items.get ⟨a - 1 - q, by omega⟩).level := by
    intro q hq
    rw [List.getD_eq_getElem _ _ (by rw [hwlen]; exact hq)]
    rw [List.getElem_reverse]
    have htl : (((items.map (fun it => it.level)).take a)).length = a := by
      simp only [List.length_take, hlenmap]; omega
    simp only [htl]
    rw [List.getElem_take, List.getElem_map]
    simp [List.get_eq_getElem]
  have haL : ((items.map (fun it => it.level)).getD a 1) = (items.get ⟨a, ha⟩).level := by
    rw [List.getD_eq_getElem _ _ (by rw [hlenmap]; exact ha), List.getElem_map]
    simp [List.get_eq_getElem]
  have hwalklev : ∀ x ∈ (((items.map (fun it => it.level)).take a)).reverse, 1 ≤ x := by
    intro x hx
    rw [List.mem_reverse] at hx
    have hx2 := List.mem_of_mem_take hx
    obtain ⟨it, hit, rfl⟩ := List.mem_map.mp hx2
    exact hlev it hit
  have hchar := ancestorMarks_getD ((items.map (fun it => it.level)).getD a 1)
    ((((items.map (fun it => it.level)).take a)).reverse) [] hwalklev (by simp)
    (a - 1 - j) (by rw [hwlen]; omega)
  rw [hchar, haL]
  rw [hwalkget (a - 1 - j) (by omega)]
  rw [get_level_congr items (a - 1 - (a - 1 - j)) j (by omega) hj (by omega)]
  constructor
  · rintro ⟨h1, _, h3⟩
    refine ⟨h1, ?_⟩
    intro k hk hjk hka
    have hq := h3 (a - 1 - k) (by omega)
    rw [hwalkget (a - 1 - k) (by omega)] at hq
    rw [get_level_congr items (a - 1 - (a - 1 - k)) k (by omega) hk (by omega)] at hq
    exact hq
  · rintro ⟨h1, h3⟩
    refine ⟨h1, by simp, ?_⟩
    intro q hq
    rw [hwalkget q (by omega)]
    have hres := h3 (a - 1 - q) (by omega) (by omega) (by omega)
    rw [get_level_congr items (a - 1 - q) (a - 1 - q) (by omega) (by omega) rfl] at hres
    exact hres

/-- Claim C7: `updateActiveItem` marks entry `j` ancestor-visible exactly when
`j` precedes the active entry, its level is strictly below the active
entry's level, and no entry between `j` and the active entry has the same
level as `j` or level 1 (the latter encodes the stop-at-level-1 rule): the
nearest preceding entry at each strictly smaller level, up to the nearest
level-1 entry. Levels are at least 1, as for real headings. -/
theorem updateActiveItem_marks_nearest_ancestors (items : List DomItem) (a : Nat)
    (ha : a < items.length) (hlev : ∀ it ∈ items, 1 ≤ it.level)
    (j : Nat) (hj : j < items.length) :
    ((updateActiveItem items (a : Int)).getD j ⟨0, 1, "", false, false⟩).parentVisible
        = true ↔
      (j < a ∧ (items.get ⟨j, hj⟩).level < (items.get ⟨a, ha⟩).level ∧
       ∀ k (hk : k < items.length), j < k → k < a →
         (items.get ⟨k, hk⟩).level ≠ (items.get ⟨j, hj⟩).level ∧
         (items.get ⟨k, hk⟩).level ≠ 1) := by
  have hcond : (0 : Int) ≤ (a : Int) ∧ (a : Int) < (items.length : Int) :=
    ⟨Int.natCast_nonneg a, by exact_mod_cast ha⟩
  have hclen : (clearMarks items).length = items.length := by simp [clearMarks]
  unfold updateActiveItem
  dsimp only
  rw [if_pos hcond]
  rw [List.getD_eq_getElem _ _ (by simp [clearMarks]; exact hj)]
  simp only [List.getElem_map, List.getElem_enum]
  have htoNat : (a : Int).toNat = a := Int.toNat_natCast a
  simp only [htoNat]
  have hj3 : j < (clearMarks items).length := by rw [hclen]; exact hj
  have hcj : (clearMarks items)[j] =
      { items[j] with active := false, parentVisible := false } := by
    simp [clearMarks]
  by_cases hja : j = a
  · rw [if_pos hja]
    simp only [hcj]
    constructor
    · intro habs; simp at habs
    · rintro ⟨h1, _⟩; omega
  · rw [if_neg hja]
    by_cases hjlt : j < a
    · by_cases hmark :
        ((ancestorMarks ((items.map (fun it => it.level)).getD a 1) []
            (((items.map (fun it => it.level)).take a)).reverse).getD (a - 1 - j) false)
          = true
      · rw [if_pos ⟨hjlt, hmark⟩]
        simp only []
        constructor
        · intro _
          refine ⟨hjlt, ?_⟩
          have := (marks_bridge items a ha hlev j hj hjlt).mp hmark
          simpa [List.get_eq_getElem] using this
        · intro _; trivial
      · rw [if_neg (fun hand => hmark hand.2)]
        simp only [hcj]
        constructor
        · intro habs; simp at habs
        · rintro ⟨_, h2, h3⟩
          exfalso
          apply hmark
          apply (marks_bridge items a ha hlev j hj hjlt).mpr
          simpa [List.get_eq_getElem] using And.intro h2 h3
    · rw [if_neg (fun hand => hjlt hand.1)]
      simp only [hcj]
      constructor
      · intro habs; simp at habs
      · rintro ⟨h1, _⟩; exact absurd h1 hjlt

/-- Claim C7 witness: the outline `[(1,"A"), (2,"B"), (3,"C"), (2,"D")]` with
active index 2 ("C"): entry 1 ("B", level 2 < 3, nearest of its level) is
marked ancestor-visible. -/
theorem updateActiveItem_marks_nearest_ancestors_witness :
    ((2 : Nat) < ([⟨0, 1, "A", false, false⟩, ⟨1, 2, "B", false, false⟩,
        ⟨2, 3, "C", false, false⟩, ⟨3, 2, "D", false, false⟩] : List DomItem).length ∧
     (∀ it ∈ ([⟨0, 1, "A", false, false⟩, ⟨1, 2, "B", false, false⟩,
        ⟨2, 3, "C", false, false⟩, ⟨3, 2, "D", false, false⟩] : List DomItem),
        1 ≤ it.level)) ∧
    (((updateActiveItem [⟨0, 1, "A", false, false⟩, ⟨1, 2, "B", false, false⟩,
        ⟨2, 3, "C", false, false⟩, ⟨3, 2, "D", false, false⟩] ((2 : Nat) : Int)).getD
          1 ⟨0, 1, "", false, false⟩).parentVisible = true ↔
      (1 < 2 ∧
       (([⟨0, 1, "A", false, false⟩, ⟨1, 2, "B", false, false⟩,
          ⟨2, 3, "C", false, false⟩, ⟨3, 2, "D", false, false⟩] : List DomItem).get
            ⟨1, by decide⟩).level <
         (([⟨0, 1, "A", false, false⟩, ⟨1, 2, "B", false, false⟩,
            ⟨2, 3, "C", false, false⟩, ⟨3, 2, "D", false, false⟩] : List DomItem).get
              ⟨2, by decide⟩).level ∧
       ∀ k (hk : k < ([⟨0, 1, "A", false, false⟩, ⟨1, 2, "B", false, false⟩,
            ⟨2, 3, "C", false, false⟩, ⟨3, 2, "D", false, false⟩] : List DomItem).length),
         1 < k → k < 2 →
         (([⟨0, 1, "A", false, false⟩, ⟨1, 2, "B", false, false⟩,
            ⟨2, 3, "C", false, false⟩, ⟨3, 2, "D", false, false⟩] : List DomItem).get
              ⟨k, hk⟩).level ≠
           (([⟨0, 1, "A", false, false⟩, ⟨1, 2, "B", false, false⟩,
              ⟨2, 3, "C", false, false⟩, ⟨3, 2, "D", false, false⟩] : List DomItem).get
                ⟨1, by decide⟩).level ∧
         (([⟨0, 1, "A", false, false⟩, ⟨1, 2, "B", false, false⟩,
            ⟨2, 3, "C", false, false⟩, ⟨3, 2, "D", false, false⟩] : List DomItem).get
              ⟨k, hk⟩).level ≠ 1)) :=
  ⟨⟨by decide, by decide⟩,
   updateActiveItem_marks_nearest_ancestors
     [⟨0, 1, "A", false, false⟩, ⟨1, 2, "B", false, false⟩,
      ⟨2, 3, "C", false, false⟩, ⟨3, 2, "D", false, false⟩] 2 (by decide) (by decide)
     1 (by decide)⟩

/-- Claim C4: the preview-mode target line is `containerTop + clientHeight/2000 − 20`,
which for a 900-pixel viewport at `containerTop = 0` is −19.55 — at (in fact
above) the very top of the viewport — and not the documented
one-third-of-viewport reading line (which would be 300). -/
theorem previewTargetTop_is_near_top :
    previewTargetTop 0 900 = -391 / 20 ∧
    previewTargetTop 0 900 < 0 ∧
    (0 : ℚ) + 900 / 3 = 300 := by
  refine ⟨?_, ?_, by norm_num⟩ <;>
    norm_num [previewTargetTop, previewUserOffset]
